import Mathlib

/-!
Verification of the hybrid fuzzy/semantic search index (package `searchindex`,
file `index.go`) and the variant-merging search handler (`cmd/server/main.go`).

Modelling conventions:
- Go `float32`/`float64` values are modelled as real numbers.
- The external embedding provider (`genai` `EmbedContent`) is modelled as an
  abstract fallible function `EmbedFn : String → Except String (List ℝ)`.
- The external Jaro-Winkler metric (`smetrics.JaroWinkler` with its fixed
  boost and prefix parameters) is modelled as an abstract function
  `jw : String → String → ℝ`; the repository only wraps it with trimming and
  lower-casing.
- Go `strings.TrimSpace` / `strings.ToLower` / `strings.Join` are modelled on
  the character-list representation of strings.
- The mutable `Index` receiver is modelled by explicit state passing: a method
  returns the post-state together with its Go return values. `Rebuild` also
  returns the trace of texts sent to the embedding provider, so that claims
  about which embedding requests are made can be stated.
- The Go `sort.Slice` call (an unspecified comparison sort with the comparator
  `results[i].Score > results[j].Score`) is modelled by insertion sort with
  the matching non-strict descending relation; the repository relies only on
  the sortedness of the output, and ties are left unspecified by the source.
- The Go `map[uint]SearchResult` used by the merge handler is modelled as an
  association list updated in place; the handler only relies on per-key
  contents, which are independent of iteration order.
-/

noncomputable section

namespace GocomSearch

/-- Go `strings.TrimSpace`: drop whitespace from both ends of a string. -/
def trimSpace (s : String) : String :=
  ⟨((s.data.dropWhile Char.isWhitespace).reverse.dropWhile Char.isWhitespace).reverse⟩

/-- Go `strings.ToLower` (character-level model). -/
def toLowerStr (s : String) : String :=
  ⟨s.data.map Char.toLower⟩

/-- `searchindex.Product` (index.go lines 15-24). Go `uint` ids become `Nat`. -/
structure Product where
  ID : Nat
  SellerID : Nat
  CategoryID : Nat
  Title : String
  Description : String
  Brand : String
  Status : Int
  Score : Int

/-- `searchindex.productDoc` (index.go lines 26-30). -/
structure ProductDoc where
  P : Product
  Embedding : List ℝ
  SearchText : String

/-- `searchindex.SearchResult` (index.go lines 32-39); the nested `Why`
struct is flattened into the two sub-score fields. -/
structure SearchResult where
  Product : Product
  Score : ℝ
  Semantic : ℝ
  Fuzzy : ℝ

/-- `searchindex.Index` (index.go lines 41-49): the two weights and the
corpus. The `genai` model handle is external and is passed to each
operation as an `EmbedFn` instead. -/
structure Index where
  semanticWeight : ℝ
  fuzzyWeight : ℝ
  docs : List ProductDoc

/-- The external embedding provider boundary: text in, vector or failure out. -/
def EmbedFn := String → Except String (List ℝ)

/-- The dot-product accumulator of the `cosine` loop (index.go lines 127-132). -/
def dot (a b : List ℝ) : ℝ := (List.zipWith (fun x y => x * y) a b).sum

/-- The squared-magnitude accumulator of the `cosine` loop. -/
def sumSq (a : List ℝ) : ℝ := (a.map (fun x => x * x)).sum

/-- `searchindex.cosine` (index.go lines 123-138). -/
def cosine (a b : List ℝ) : ℝ :=
  if a.length = 0 ∨ b.length = 0 ∨ a.length ≠ b.length then 0
  else if Real.sqrt (sumSq a) * Real.sqrt (sumSq b) = 0 then 0
  else dot a b / (Real.sqrt (sumSq a) * Real.sqrt (sumSq b))

/-- `searchindex.jaroWinkler` (index.go lines 140-144): trim and lower-case
both inputs, then apply the external metric `jw` (standing for
`smetrics.JaroWinkler` with boost threshold 0.7 and prefix size 4). -/
def jaroWinkler (jw : String → String → ℝ) (a b : String) : ℝ :=
  jw (toLowerStr (trimSpace a)) (toLowerStr (trimSpace b))

/-- `searchindex.max3` (index.go line 146). -/
def max3 (a b c : ℝ) : ℝ := max a (max b c)

/-- The search text derived from a product during `Rebuild` (index.go
line 63): title, brand and description joined with spaces, then trimmed. -/
def searchText (p : Product) : String :=
  trimSpace (p.Title ++ " " ++ p.Brand ++ " " ++ p.Description)

/-- A `Rebuild` failure (index.go line 69): the id of the product whose
embedding request failed, and the underlying cause. -/
structure RebuildErr where
  id : Nat
  cause : String

/-- The corpus-building loop of `Index.Rebuild` (index.go lines 61-76).
Returns the new document list together with the trace of texts sent to the
embedding provider, or the first failure. -/
def buildDocs (embed : EmbedFn) : List Product → Except RebuildErr (List ProductDoc × List String)
  | [] => .ok ([], [])
  | p :: ps =>
    if searchText p = "" then buildDocs embed ps
    else
      match embed (searchText p) with
      | .error e => .error ⟨p.ID, e⟩
      | .ok vals =>
        match buildDocs embed ps with
        | .error e => .error e
        | .ok (ds, cs) => .ok (⟨p, vals, searchText p⟩ :: ds, searchText p :: cs)

/-- `Index.Rebuild` (index.go lines 60-81) as a state transformer: the
post-state and the Go error value. On failure the receiver is untouched;
on success the corpus is replaced wholesale. -/
def Index.rebuild (ix : Index) (embed : EmbedFn) (products : List Product) :
    Index × Option RebuildErr :=
  match buildDocs embed products with
  | .error e => (ix, some e)
  | .ok (ds, _) => ({ ix with docs := ds }, none)

/-- The per-document scoring step of the `Search` loop (index.go
lines 99-113). -/
def scoreDoc (ix : Index) (jw : String → String → ℝ) (q : String) (qVec : List ℝ)
    (d : ProductDoc) : SearchResult :=
  { Product := d.P
    Score := ix.semanticWeight * cosine qVec d.Embedding +
      ix.fuzzyWeight * max3 (jaroWinkler jw q d.P.Title) (jaroWinkler jw q d.P.Brand)
        (jaroWinkler jw q d.P.Description)
    Semantic := cosine qVec d.Embedding
    Fuzzy := max3 (jaroWinkler jw q d.P.Title) (jaroWinkler jw q d.P.Brand)
      (jaroWinkler jw q d.P.Description) }

instance : DecidableRel fun (a b : SearchResult) => b.Score ≤ a.Score :=
  fun a b => Real.decidableLE b.Score a.Score

instance : IsTotal SearchResult fun a b => b.Score ≤ a.Score :=
  ⟨fun a b => le_total b.Score a.Score⟩

instance : IsTrans SearchResult fun a b => b.Score ≤ a.Score :=
  ⟨fun _ _ _ h1 h2 => le_trans h2 h1⟩

/-- The `sort.Slice` call of `Search` (index.go line 116) and of the merge
handler (main.go line 131): sort by combined score, descending. -/
def sortByScoreDesc (l : List SearchResult) : List SearchResult :=
  l.insertionSort fun a b => b.Score ≤ a.Score

/-- The top-K truncation applied by `Search` (index.go lines 117-119) and by
the merge handler (main.go lines 132-134). -/
def truncateTopK (k : Int) (l : List SearchResult) : List SearchResult :=
  if 0 < k ∧ k < (l.length : Int) then l.take k.toNat else l

/-- `Index.Search` (index.go lines 83-121) as a state transformer: the
post-state (the method only reads the receiver) and the Go return value. -/
def Index.searchS (ix : Index) (embed : EmbedFn) (jw : String → String → ℝ)
    (query : String) (topK : Int) : Index × Except String (List SearchResult) :=
  if trimSpace query = "" then (ix, .ok [])
  else
    match embed (trimSpace query) with
    | .error e => (ix, .error ("embed query: " ++ e))
    | .ok qVec =>
      (ix, .ok (truncateTopK topK
        (sortByScoreDesc (ix.docs.map (scoreDoc ix jw (trimSpace query) qVec)))))

/-- The value returned by `Index.Search`. -/
def Index.search (ix : Index) (embed : EmbedFn) (jw : String → String → ℝ)
    (query : String) (topK : Int) : Except String (List SearchResult) :=
  (ix.searchS embed jw query topK).2

/-- `nlp.Rewrite` (rewriter.go lines 14-17). -/
structure Rewrite where
  Primary : String
  Alternatives : List String

/-- One merge step of the handler closure `merge` (main.go lines 103-110):
insert a result into the best-per-id map, keeping the entry with the higher
combined score (strictly greater replaces). -/
def updateBest (it : SearchResult) : List (Nat × SearchResult) → List (Nat × SearchResult)
  | [] => [(it.Product.ID, it)]
  | (k, v) :: rest =>
    if k = it.Product.ID then
      if v.Score < it.Score then (k, it) :: rest else (k, v) :: rest
    else (k, v) :: updateBest it rest

/-- `merge(list)` (main.go lines 103-110): fold one result list into the map. -/
def mergeList (b : List (Nat × SearchResult)) (l : List SearchResult) :
    List (Nat × SearchResult) :=
  l.foldl (fun acc it => updateBest it acc) b

/-- The flatten-sort-truncate tail of the handler (main.go lines 126-134),
applied to the per-variant result lists that merged successfully. -/
def mergeOut (ls : List (List SearchResult)) (topK : Int) : List SearchResult :=
  truncateTopK topK (sortByScoreDesc ((ls.foldl mergeList []).map Prod.snd))

/-- The per-variant searches of the handler (main.go lines 112-124): search
each variant in order and keep the result lists of the searches that
succeeded; a failing variant contributes nothing. -/
def variantLists (ix : Index) (embed : EmbedFn) (jw : String → String → ℝ)
    (topK : Int) : List String → List (List SearchResult)
  | [] => []
  | v :: vs =>
    match ix.search embed jw v topK with
    | .error _ => variantLists ix embed jw topK vs
    | .ok l => l :: variantLists ix embed jw topK vs

/-- The `/search` handler core (main.go lines 92-134): fall back to the raw
query when the rewriter failed, search primary then alternatives, merge by
best score, sort and truncate. -/
def handleSearch (ix : Index) (embed : EmbedFn) (jw : String → String → ℝ)
    (rwRes : Except String Rewrite) (q : String) (topK : Int) : List SearchResult :=
  let rw := match rwRes with
    | .error _ => ({ Primary := q, Alternatives := [] } : Rewrite)
    | .ok r => r
  mergeOut (variantLists ix embed jw topK (rw.Primary :: rw.Alternatives)) topK

/-- Invariant of the best-per-id map relative to the results processed so
far: ids are unique, each entry is one of the processed results carrying its
own id, each entry dominates every processed result with its id, and every
processed result has an entry for its id. -/
def MergeInv (P : List SearchResult) (b : List (Nat × SearchResult)) : Prop :=
  (b.map Prod.fst).Nodup ∧
  (∀ kv ∈ b, kv.2.Product.ID = kv.1 ∧ kv.2 ∈ P ∧
    ∀ x ∈ P, x.Product.ID = kv.1 → x.Score ≤ kv.2.Score) ∧
  ∀ x ∈ P, x.Product.ID ∈ b.map Prod.fst

/- Concrete instances used as witnesses and counterexamples. -/

/-- A trivial stand-in for the external string metric. -/
def jwZ : String → String → ℝ := fun _ _ => 0

/-- An embedding provider that always answers with the vector [1]. -/
def efOk1 : EmbedFn := fun _ => .ok [(1 : ℝ)]

/-- An embedding provider that always fails. -/
def efFail : EmbedFn := fun _ => .error "x"

/-- A product whose derived search text is empty. -/
def pEmpty : Product := ⟨1, 0, 0, "", "", "", 0, 0⟩

/-- A product whose derived search text is the single letter a. -/
def pA : Product := ⟨2, 0, 0, "a", "", "", 0, 0⟩

/-- The document built from `pA` by `efOk1`. -/
def dA : ProductDoc := ⟨pA, [(1 : ℝ)], "a"⟩

/-- A document whose embedding points opposite to the query embedding. -/
def dNeg : ProductDoc := ⟨pA, [(-1 : ℝ)], "a"⟩

/-- A one-document index with pure semantic weighting. -/
def ix1 : Index := ⟨1, 0, [dA]⟩

/-- A one-document index whose document embedding is [-1]. -/
def ixNeg : Index := ⟨1, 0, [dNeg]⟩

/-- An index with an empty corpus. -/
def ixE : Index := ⟨1, 0, []⟩

/-- The result `Search` produces for `dA` under `efOk1` and `jwZ`. -/
def rA : SearchResult := scoreDoc ix1 jwZ (trimSpace "q") [(1 : ℝ)] dA

/-- The result `Search` produces for `dNeg` under `efOk1` and `jwZ`. -/
def rNeg : SearchResult := scoreDoc ixNeg jwZ (trimSpace "q") [(1 : ℝ)] dNeg

/-- A fixed all-zero result used to exercise the merge. -/
def r0 : SearchResult := ⟨pA, 0, 0, 0⟩

/-! ## Basic lemmas about the scoring primitives -/

lemma sumSq_nonneg (a : List ℝ) : 0 ≤ sumSq a := by
  refine List.sum_nonneg ?_
  intro x hx
  obtain ⟨y, _, rfl⟩ := List.mem_map.mp hx
  exact mul_self_nonneg y

lemma dot_sq_le (a : List ℝ) : ∀ b : List ℝ, dot a b ^ 2 ≤ sumSq a * sumSq b := by
  induction a with
  | nil =>
    intro b
    simp [dot, sumSq]
  | cons x xs ih =>
    intro b
    cases b with
    | nil =>
      simp [dot, sumSq]
    | cons y ys =>
      have hd := ih ys
      have hA := sumSq_nonneg xs
      have hB := sumSq_nonneg ys
      have hcons : dot (x :: xs) (y :: ys) = x * y + dot xs ys := by
        simp [dot]
      have hsa : sumSq (x :: xs) = x * x + sumSq xs := by
        simp [sumSq]
      have hsb : sumSq (y :: ys) = y * y + sumSq ys := by
        simp [sumSq]
      rw [hcons, hsa, hsb]
      rcases hB.eq_or_lt with hB0 | hBpos
      · have hdd : dot xs ys ^ 2 ≤ 0 := by
          rw [← hB0, mul_zero] at hd
          exact hd
        have hd0 : dot xs ys = 0 :=
          (pow_eq_zero_iff two_ne_zero).mp (le_antisymm hdd (sq_nonneg _))
        rw [hd0, ← hB0]
        nlinarith [mul_nonneg hA (sq_nonneg y)]
      · nlinarith [sq_nonneg (x * sumSq ys - y * dot xs ys),
          mul_nonneg (sq_nonneg y) (sub_nonneg.mpr hd),
          mul_nonneg (le_of_lt hBpos) (sub_nonneg.mpr hd)]

/-! ## Lemmas about `Search` -/

lemma search_eq_empty (ix : Index) (embed : EmbedFn) (jw : String → String → ℝ)
    (q : String) (k : Int) (h : trimSpace q = "") :
    ix.search embed jw q k = .ok [] := by
  unfold Index.search Index.searchS
  rw [if_pos h]

lemma search_eq_err (ix : Index) (embed : EmbedFn) (jw : String → String → ℝ)
    (q : String) (k : Int) (e : String) (hq : trimSpace q ≠ "")
    (he : embed (trimSpace q) = .error e) :
    ix.search embed jw q k = .error ("embed query: " ++ e) := by
  unfold Index.search Index.searchS
  rw [if_neg hq, he]

lemma search_eq_ok (ix : Index) (embed : EmbedFn) (jw : String → String → ℝ)
    (q : String) (k : Int) (v : List ℝ) (hq : trimSpace q ≠ "")
    (he : embed (trimSpace q) = .ok v) :
    ix.search embed jw q k =
      .ok (truncateTopK k (sortByScoreDesc (ix.docs.map (scoreDoc ix jw (trimSpace q) v)))) := by
  unfold Index.search Index.searchS
  rw [if_neg hq, he]

/-- Case analysis on a successful `Search` call. -/
lemma search_ok_cases (ix : Index) (embed : EmbedFn) (jw : String → String → ℝ)
    (q : String) (k : Int) (res : List SearchResult)
    (hs : ix.search embed jw q k = .ok res) :
    (trimSpace q = "" ∧ res = []) ∨
    (trimSpace q ≠ "" ∧ ∃ v, embed (trimSpace q) = .ok v ∧
      res = truncateTopK k (sortByScoreDesc (ix.docs.map (scoreDoc ix jw (trimSpace q) v)))) := by
  by_cases hq : trimSpace q = ""
  · left
    refine ⟨hq, ?_⟩
    rw [search_eq_empty ix embed jw q k hq] at hs
    exact (Except.ok.injEq _ _).mp hs.symm
  · right
    refine ⟨hq, ?_⟩
    cases hE : embed (trimSpace q) with
    | error e =>
      rw [search_eq_err ix embed jw q k e hq hE] at hs
      cases hs
    | ok v =>
      rw [search_eq_ok ix embed jw q k v hq hE] at hs
      exact ⟨v, rfl, ((Except.ok.injEq _ _).mp hs).symm⟩

lemma truncateTopK_sublist (k : Int) (l : List SearchResult) :
    (truncateTopK k l).Sublist l := by
  unfold truncateTopK
  split
  · exact List.take_sublist _ _
  · exact List.Sublist.refl l

lemma truncateTopK_length (k : Int) (l : List SearchResult) (hk : 0 < k) :
    ((truncateTopK k l).length : Int) ≤ k := by
  unfold truncateTopK
  split
  · have h1 : (l.take k.toNat).length ≤ k.toNat := List.length_take_le _ _
    omega
  · rename_i hcond
    have := not_and.mp hcond hk
    omega

lemma truncateTopK_of_nonpos (k : Int) (l : List SearchResult) (hk : k ≤ 0) :
    truncateTopK k l = l := by
  unfold truncateTopK
  rw [if_neg]
  rintro ⟨h1, _⟩
  exact absurd h1 (not_lt.mpr hk)

/-- Every returned result arises from some corpus document. -/
lemma search_result_from_docs (ix : Index) (embed : EmbedFn) (jw : String → String → ℝ)
    (q : String) (k : Int) (res : List SearchResult)
    (hs : ix.search embed jw q k = .ok res) :
    ∀ r ∈ res, ∃ d ∈ ix.docs, r.Product = d.P := by
  intro r hr
  rcases search_ok_cases ix embed jw q k res hs with ⟨_, rfl⟩ | ⟨hq, v, hv, rfl⟩
  · cases hr
  · have hr2 : r ∈ ix.docs.map (scoreDoc ix jw (trimSpace q) v) := by
      have hmem := (truncateTopK_sublist k _).subset hr
      simpa [sortByScoreDesc] using hmem
    obtain ⟨d, hd, rfl⟩ := List.mem_map.mp hr2
    exact ⟨d, hd, rfl⟩

/-! ## Lemmas about `buildDocs` -/

lemma buildDocs_ok_props (embed : EmbedFn) :
    ∀ (ps : List Product) (ds : List ProductDoc) (cs : List String),
    buildDocs embed ps = .ok (ds, cs) →
    (∀ d ∈ ds, d.SearchText = searchText d.P ∧ searchText d.P ≠ "") ∧
    (∀ s ∈ cs, s ≠ "") ∧
    ds.length ≤ ps.length ∧
    ((∃ p ∈ ps, searchText p = "") → ds.length < ps.length) := by
  intro ps
  induction ps with
  | nil =>
    intro ds cs h
    simp only [buildDocs] at h
    obtain ⟨rfl, rfl⟩ : ds = [] ∧ cs = [] := by
      have := (Except.ok.injEq _ _).mp h
      exact ⟨congrArg Prod.fst this.symm, congrArg Prod.snd this.symm⟩
    refine ⟨by simp, by simp, le_refl _, ?_⟩
    rintro ⟨p, hp, _⟩
    cases hp
  | cons p ps ih =>
    intro ds cs h
    by_cases hp : searchText p = ""
    · rw [buildDocs, if_pos hp] at h
      obtain ⟨h1, h2, h3, _⟩ := ih ds cs h
      refine ⟨h1, h2, Nat.le_succ_of_le h3, ?_⟩
      intro _
      exact Nat.lt_succ_of_le h3
    · rw [buildDocs, if_neg hp] at h
      cases hE : embed (searchText p) with
      | error e =>
        rw [hE] at h
        cases h
      | ok vals =>
        rw [hE] at h
        cases hB : buildDocs embed ps with
        | error e =>
          rw [hB] at h
          cases h
        | ok pr =>
          obtain ⟨ds', cs'⟩ := pr
          rw [hB] at h
          have hpair := (Except.ok.injEq _ _).mp h
          obtain ⟨hds, hcs⟩ : ds = ⟨p, vals, searchText p⟩ :: ds' ∧ cs = searchText p :: cs' :=
            ⟨(congrArg Prod.fst hpair).symm, (congrArg Prod.snd hpair).symm⟩
          subst hds; subst hcs
          obtain ⟨h1, h2, h3, h4⟩ := ih ds' cs' hB
          refine ⟨?_, ?_, Nat.succ_le_succ h3, ?_⟩
          · intro d hd
            rcases List.mem_cons.mp hd with rfl | hd'
            · exact ⟨rfl, hp⟩
            · exact h1 d hd'
          · intro s hsmem
            rcases List.mem_cons.mp hsmem with rfl | hs'
            · exact hp
            · exact h2 s hs'
          · rintro ⟨p', hp', hp'e⟩
            rcases List.mem_cons.mp hp' with rfl | hp''
            · exact absurd hp'e hp
            · exact Nat.succ_lt_succ (h4 ⟨p', hp'', hp'e⟩)

lemma buildDocs_error_of_fail (embed : EmbedFn) :
    ∀ ps : List Product,
    (∃ p ∈ ps, searchText p ≠ "" ∧ ∃ c, embed (searchText p) = .error c) →
    ∃ e : RebuildErr, buildDocs embed ps = .error e ∧
      ∃ p ∈ ps, searchText p ≠ "" ∧ embed (searchText p) = .error e.cause ∧ e.id = p.ID := by
  intro ps
  induction ps with
  | nil =>
    rintro ⟨p, hp, _⟩
    cases hp
  | cons p ps ih =>
    rintro ⟨p', hp', hne, c, hc⟩
    by_cases hp : searchText p = ""
    · have hin : p' ∈ ps := by
        rcases List.mem_cons.mp hp' with rfl | h
        · exact absurd hp hne
        · exact h
      obtain ⟨e, he, p'', hp'', hprops⟩ := ih ⟨p', hin, hne, c, hc⟩
      refine ⟨e, ?_, p'', List.mem_cons_of_mem p hp'', hprops⟩
      rw [buildDocs, if_pos hp, he]
    · cases hE : embed (searchText p) with
      | error e0 =>
        refine ⟨⟨p.ID, e0⟩, ?_, p, List.mem_cons_self p ps, hp, hE, rfl⟩
        rw [buildDocs, if_neg hp, hE]
      | ok vals =>
        have hin : p' ∈ ps := by
          rcases List.mem_cons.mp hp' with rfl | h
          · rw [hE] at hc
            cases hc
          · exact h
        obtain ⟨e, he, p'', hp'', hprops⟩ := ih ⟨p', hin, hne, c, hc⟩
        refine ⟨e, ?_, p'', List.mem_cons_of_mem p hp'', hprops⟩
        rw [buildDocs, if_neg hp, hE, he]

/-! ## Lemmas about the merge map -/

lemma assoc_mem_eq : ∀ b : List (Nat × SearchResult), (b.map Prod.fst).Nodup →
    ∀ kv ∈ b, ∀ kv' ∈ b, kv.1 = kv'.1 → kv = kv' := by
  intro b
  induction b with
  | nil =>
    intro _ kv hkv
    cases hkv
  | cons hd tl ih =>
    intro hnd kv hkv kv' hkv' hkk
    rw [List.map_cons, List.nodup_cons] at hnd
    obtain ⟨hnotin, hnd_tl⟩ := hnd
    rcases List.mem_cons.mp hkv with rfl | h1
    · rcases List.mem_cons.mp hkv' with rfl | h2
      · rfl
      · exfalso
        apply hnotin
        rw [hkk]
        exact List.mem_map_of_mem Prod.fst h2
    · rcases List.mem_cons.mp hkv' with rfl | h2
      · exfalso
        apply hnotin
        rw [← hkk]
        exact List.mem_map_of_mem Prod.fst h1
      · exact ih hnd_tl kv h1 kv' h2 hkk

lemma updateBest_mem (it : SearchResult) :
    ∀ b : List (Nat × SearchResult), ∀ kv ∈ updateBest it b,
      kv ∈ b ∨ kv = (it.Product.ID, it) := by
  intro b
  induction b with
  | nil =>
    intro kv hkv
    simp only [updateBest] at hkv
    exact Or.inr (List.mem_singleton.mp hkv)
  | cons hd tl ih =>
    obtain ⟨k, v⟩ := hd
    intro kv hkv
    simp only [updateBest] at hkv
    by_cases hk : k = it.Product.ID
    · rw [if_pos hk] at hkv
      by_cases hsc : v.Score < it.Score
      · rw [if_pos hsc] at hkv
        rcases List.mem_cons.mp hkv with rfl | h
        · right
          rw [hk]
        · exact Or.inl (List.mem_cons_of_mem _ h)
      · rw [if_neg hsc] at hkv
        exact Or.inl hkv
    · rw [if_neg hk] at hkv
      rcases List.mem_cons.mp hkv with rfl | h
      · exact Or.inl (List.mem_cons_self _ _)
      · rcases ih kv h with h1 | h2
        · exact Or.inl (List.mem_cons_of_mem _ h1)
        · exact Or.inr h2

lemma updateBest_keys_sub (it : SearchResult) (b : List (Nat × SearchResult)) :
    ∀ x ∈ (updateBest it b).map Prod.fst, x ∈ b.map Prod.fst ∨ x = it.Product.ID := by
  intro x hx
  obtain ⟨kv, hkv, rfl⟩ := List.mem_map.mp hx
  rcases updateBest_mem it b kv hkv with h | h
  · exact Or.inl (List.mem_map_of_mem Prod.fst h)
  · rw [h]
    exact Or.inr rfl

lemma updateBest_keys_sup (it : SearchResult) :
    ∀ b : List (Nat × SearchResult), ∀ x ∈ b.map Prod.fst,
      x ∈ (updateBest it b).map Prod.fst := by
  intro b
  induction b with
  | nil =>
    intro x hx
    cases hx
  | cons hd tl ih =>
    obtain ⟨k, v⟩ := hd
    intro x hx
    rw [List.map_cons, List.mem_cons] at hx
    simp only [updateBest]
    by_cases hk : k = it.Product.ID
    · rw [if_pos hk]
      by_cases hsc : v.Score < it.Score
      · rw [if_pos hsc, List.map_cons, List.mem_cons]
        exact hx
      · rw [if_neg hsc, List.map_cons, List.mem_cons]
        exact hx
    · rw [if_neg hk, List.map_cons, List.mem_cons]
      rcases hx with rfl | h
      · exact Or.inl rfl
      · exact Or.inr (ih x h)

lemma updateBest_keys_self (it : SearchResult) :
    ∀ b : List (Nat × SearchResult), it.Product.ID ∈ (updateBest it b).map Prod.fst := by
  intro b
  induction b with
  | nil => simp [updateBest]
  | cons hd tl ih =>
    obtain ⟨k, v⟩ := hd
    simp only [updateBest]
    by_cases hk : k = it.Product.ID
    · rw [if_pos hk]
      by_cases hsc : v.Score < it.Score
      · rw [if_pos hsc, List.map_cons, List.mem_cons]
        exact Or.inl hk.symm
      · rw [if_neg hsc, List.map_cons, List.mem_cons]
        exact Or.inl hk.symm
    · rw [if_neg hk, List.map_cons, List.mem_cons]
      exact Or.inr ih

lemma updateBest_nodup (it : SearchResult) :
    ∀ b : List (Nat × SearchResult), (b.map Prod.fst).Nodup →
      ((updateBest it b).map Prod.fst).Nodup := by
  intro b
  induction b with
  | nil =>
    intro _
    simp [updateBest]
  | cons hd tl ih =>
    obtain ⟨k, v⟩ := hd
    intro hnd
    rw [List.map_cons, List.nodup_cons] at hnd
    obtain ⟨hk_notin, hnd_tl⟩ := hnd
    simp only [updateBest]
    by_cases hk : k = it.Product.ID
    · rw [if_pos hk]
      by_cases hsc : v.Score < it.Score
      · rw [if_pos hsc, List.map_cons, List.nodup_cons]
        exact ⟨hk_notin, hnd_tl⟩
      · rw [if_neg hsc, List.map_cons, List.nodup_cons]
        exact ⟨hk_notin, hnd_tl⟩
    · rw [if_neg hk, List.map_cons, List.nodup_cons]
      refine ⟨?_, ih hnd_tl⟩
      intro hmem
      rcases updateBest_keys_sub it tl k hmem with h | h
      · exact hk_notin h
      · exact hk h

lemma updateBest_dom_new (it : SearchResult) :
    ∀ b : List (Nat × SearchResult), (b.map Prod.fst).Nodup →
      ∀ kv ∈ updateBest it b, kv.1 = it.Product.ID → it.Score ≤ kv.2.Score := by
  intro b
  induction b with
  | nil =>
    intro _ kv hkv _
    simp only [updateBest] at hkv
    rw [List.mem_singleton.mp hkv]
  | cons hd tl ih =>
    obtain ⟨k, v⟩ := hd
    intro hnd kv hkv hk1
    rw [List.map_cons, List.nodup_cons] at hnd
    obtain ⟨hk_notin, hnd_tl⟩ := hnd
    have hk1' : kv.1 = it.Product.ID := hk1
    simp only [updateBest] at hkv
    by_cases hk : k = it.Product.ID
    · rw [if_pos hk] at hkv
      by_cases hsc : v.Score < it.Score
      · rw [if_pos hsc] at hkv
        rcases List.mem_cons.mp hkv with heq | h
        · rw [heq]
        · exfalso
          apply hk_notin
          show k ∈ List.map Prod.fst tl
          rw [hk, ← hk1']
          exact List.mem_map_of_mem Prod.fst h
      · rw [if_neg hsc] at hkv
        rcases List.mem_cons.mp hkv with heq | h
        · rw [heq]
          exact not_lt.mp hsc
        · exfalso
          apply hk_notin
          show k ∈ List.map Prod.fst tl
          rw [hk, ← hk1']
          exact List.mem_map_of_mem Prod.fst h
    · rw [if_neg hk] at hkv
      rcases List.mem_cons.mp hkv with heq | h
      · exfalso
        apply hk
        rw [← hk1', heq]
      · exact ih hnd_tl kv h hk1

lemma updateBest_dom_old (it : SearchResult) :
    ∀ b : List (Nat × SearchResult), (b.map Prod.fst).Nodup →
      ∀ kv' ∈ b, ∀ kv ∈ updateBest it b, kv.1 = kv'.1 → kv'.2.Score ≤ kv.2.Score := by
  intro b
  induction b with
  | nil =>
    intro _ kv' hkv'
    cases hkv'
  | cons hd tl ih =>
    obtain ⟨k, v⟩ := hd
    intro hnd kv' hkv' kv hkv hkk
    have hnd' := hnd
    rw [List.map_cons, List.nodup_cons] at hnd'
    obtain ⟨hk_notin, hnd_tl⟩ := hnd'
    have hk_notin' : k ∉ List.map Prod.fst tl := hk_notin
    simp only [updateBest] at hkv
    by_cases hk : k = it.Product.ID
    · rw [if_pos hk] at hkv
      by_cases hsc : v.Score < it.Score
      · rw [if_pos hsc] at hkv
        rcases List.mem_cons.mp hkv' with heq' | h'
        · rcases List.mem_cons.mp hkv with heq | h
          · rw [heq, heq']
            exact le_of_lt hsc
          · exfalso
            apply hk_notin'
            have hq : kv.1 = k := by
              rw [hkk, heq']
            rw [← hq]
            exact List.mem_map_of_mem Prod.fst h
        · rcases List.mem_cons.mp hkv with heq | h
          · exfalso
            apply hk_notin'
            have hq : kv'.1 = k := by
              rw [← hkk, heq]
            rw [← hq]
            exact List.mem_map_of_mem Prod.fst h'
          · rw [assoc_mem_eq tl hnd_tl kv h kv' h' hkk]
      · rw [if_neg hsc] at hkv
        rw [assoc_mem_eq ((k, v) :: tl) hnd kv hkv kv' hkv' hkk]
    · rw [if_neg hk] at hkv
      rcases List.mem_cons.mp hkv' with heq' | h'
      · rcases List.mem_cons.mp hkv with heq | h
        · rw [heq, heq']
        · exfalso
          rcases updateBest_keys_sub it tl kv.1 (List.mem_map_of_mem Prod.fst h) with hx | hx
          · apply hk_notin'
            have hq : kv.1 = k := by
              rw [hkk, heq']
            rw [← hq]
            exact hx
          · apply hk
            have hq : kv.1 = k := by
              rw [hkk, heq']
            rw [← hq]
            exact hx
      · rcases List.mem_cons.mp hkv with heq | h
        · exfalso
          apply hk_notin'
          have hq : kv'.1 = k := by
            rw [← hkk, heq]
          rw [← hq]
          exact List.mem_map_of_mem Prod.fst h'
        · exact ih hnd_tl kv' h' kv h hkk

lemma updateBest_inv (it : SearchResult) (P : List SearchResult)
    (b : List (Nat × SearchResult)) (h : MergeInv P b) :
    MergeInv (P ++ [it]) (updateBest it b) := by
  obtain ⟨hnd, hent, hcomp⟩ := h
  refine ⟨updateBest_nodup it b hnd, ?_, ?_⟩
  · intro kv hkv
    rcases updateBest_mem it b kv hkv with hin | hnew
    · obtain ⟨hid, hP, hdom⟩ := hent kv hin
      refine ⟨hid, List.mem_append_left _ hP, ?_⟩
      intro x hx hxid
      rcases List.mem_append.mp hx with hxP | hxit
      · exact hdom x hxP hxid
      · have hxi : x = it := List.mem_singleton.mp hxit
        rw [hxi] at hxid ⊢
        exact updateBest_dom_new it b hnd kv hkv hxid.symm
    · subst hnew
      refine ⟨rfl, List.mem_append_right _ (List.mem_singleton_self it), ?_⟩
      intro x hx hxid
      rcases List.mem_append.mp hx with hxP | hxit
      · obtain ⟨kv', hkv', hkey⟩ := List.mem_map.mp (hcomp x hxP)
        have hdom1 := (hent kv' hkv').2.2 x hxP hkey.symm
        have hdom2 := updateBest_dom_old it b hnd kv' hkv' (it.Product.ID, it) hkv
          (hkey.trans hxid).symm
        exact le_trans hdom1 hdom2
      · have hxi : x = it := List.mem_singleton.mp hxit
        rw [hxi]
  · intro x hx
    rcases List.mem_append.mp hx with hxP | hxit
    · exact updateBest_keys_sup it b _ (hcomp x hxP)
    · have hxi : x = it := List.mem_singleton.mp hxit
      rw [hxi]
      exact updateBest_keys_self it b

lemma mergeList_inv : ∀ (l P : List SearchResult) (b : List (Nat × SearchResult)),
    MergeInv P b → MergeInv (P ++ l) (mergeList b l) := by
  intro l
  induction l with
  | nil =>
    intro P b h
    simpa [mergeList] using h
  | cons it l ih =>
    intro P b h
    have h2 := ih (P ++ [it]) (updateBest it b) (updateBest_inv it P b h)
    have hfold : mergeList b (it :: l) = mergeList (updateBest it b) l := rfl
    rw [hfold]
    simpa [List.append_assoc] using h2

lemma mergeLists_inv : ∀ (ls : List (List SearchResult)) (P : List SearchResult)
    (b : List (Nat × SearchResult)),
    MergeInv P b → MergeInv (P ++ ls.flatten) (ls.foldl mergeList b) := by
  intro ls
  induction ls with
  | nil =>
    intro P b h
    simpa using h
  | cons l ls ih =>
    intro P b h
    have h2 := ih (P ++ l) (mergeList b l) (mergeList_inv l P b h)
    simpa [List.append_assoc] using h2

lemma mergeInv_out (ls : List (List SearchResult)) :
    MergeInv ls.flatten (ls.foldl mergeList []) := by
  have h0 : MergeInv [] ([] : List (Nat × SearchResult)) := by
    refine ⟨by simp, ?_, ?_⟩
    · intro kv hkv
      cases hkv
    · intro x hx
      cases hx
  simpa using mergeLists_inv ls [] [] h0

/-! ## Claim C1 -/

/-- C1 (amended): the semantic sub-score computed by `cosine` lies in the
interval from -1 to 1 whenever both vectors are non-empty, of equal length,
and the product of their magnitudes is non-zero; and it is exactly 0 whenever
either vector is empty, the lengths differ, or the product of magnitudes is
zero. (The original claim said the interval 0 to 1; the cosine of real
vectors can be negative, see the counterexample.) -/
theorem cosine_semantic_range (a b : List ℝ) :
    (a ≠ [] → b ≠ [] → a.length = b.length →
      Real.sqrt (sumSq a) * Real.sqrt (sumSq b) ≠ 0 →
      -1 ≤ cosine a b ∧ cosine a b ≤ 1) ∧
    ((a = [] ∨ b = [] ∨ a.length ≠ b.length) → cosine a b = 0) ∧
    (Real.sqrt (sumSq a) * Real.sqrt (sumSq b) = 0 → cosine a b = 0) := by
  refine ⟨?_, ?_, ?_⟩
  · intro ha hb hlen hden
    have hguard : ¬(a.length = 0 ∨ b.length = 0 ∨ a.length ≠ b.length) := by
      push_neg
      refine ⟨?_, ?_, hlen⟩
      · exact fun h => ha (List.length_eq_zero.mp h)
      · exact fun h => hb (List.length_eq_zero.mp h)
    rw [cosine, if_neg hguard, if_neg hden]
    have hden_nonneg : 0 ≤ Real.sqrt (sumSq a) * Real.sqrt (sumSq b) :=
      mul_nonneg (Real.sqrt_nonneg _) (Real.sqrt_nonneg _)
    have hden_pos : 0 < Real.sqrt (sumSq a) * Real.sqrt (sumSq b) :=
      lt_of_le_of_ne hden_nonneg (Ne.symm hden)
    have habs : |dot a b| ≤ Real.sqrt (sumSq a) * Real.sqrt (sumSq b) := by
      have h2 : Real.sqrt (dot a b ^ 2) ≤ Real.sqrt (sumSq a * sumSq b) :=
        Real.sqrt_le_sqrt (dot_sq_le a b)
      rwa [Real.sqrt_sq_eq_abs, Real.sqrt_mul (sumSq_nonneg a)] at h2
    have hle := abs_le.mp habs
    constructor
    · rw [neg_le, ← neg_div]
      exact (div_le_one hden_pos).mpr (by linarith [hle.1])
    · exact (div_le_one hden_pos).mpr hle.2
  · intro h
    have hguard : a.length = 0 ∨ b.length = 0 ∨ a.length ≠ b.length := by
      rcases h with h | h | h
      · exact Or.inl (by simp [h])
      · exact Or.inr (Or.inl (by simp [h]))
      · exact Or.inr (Or.inr h)
    rw [cosine, if_pos hguard]
  · intro hden
    by_cases hguard : a.length = 0 ∨ b.length = 0 ∨ a.length ≠ b.length
    · rw [cosine, if_pos hguard]
    · rw [cosine, if_neg hguard, if_pos hden]

/-- Witness for `cosine_semantic_range` at the concrete vectors [1] and [1]. -/
theorem cosine_semantic_range_witness :
    (([(1 : ℝ)] : List ℝ) ≠ [] ∧
      ([(1 : ℝ)] : List ℝ).length = ([(1 : ℝ)] : List ℝ).length ∧
      Real.sqrt (sumSq [(1 : ℝ)]) * Real.sqrt (sumSq [(1 : ℝ)]) ≠ 0) ∧
    (-1 ≤ cosine [(1 : ℝ)] [(1 : ℝ)] ∧ cosine [(1 : ℝ)] [(1 : ℝ)] ≤ 1) := by
  have hden : Real.sqrt (sumSq [(1 : ℝ)]) * Real.sqrt (sumSq [(1 : ℝ)]) ≠ 0 := by
    norm_num [sumSq, Real.sqrt_one]
  refine ⟨⟨by simp, rfl, hden⟩, ?_⟩
  exact (cosine_semantic_range [(1 : ℝ)] [(1 : ℝ)]).1 (by simp) (by simp) rfl hden

/-- Counterexample to C1 as stated: a Search over a one-document corpus in
which both vectors are the non-empty, equal-length, non-zero-magnitude
vectors [1] and [-1] records a semantic sub-score of -1, which is not in the
interval from 0 to 1. -/
theorem cosine_semantic_range_cex :
    ixNeg.search efOk1 jwZ "q" 10 = .ok [rNeg] ∧
    efOk1 (trimSpace "q") = .ok [(1 : ℝ)] ∧
    dNeg.Embedding = [(-1 : ℝ)] ∧
    ([(1 : ℝ)] : List ℝ) ≠ [] ∧
    ([(1 : ℝ)] : List ℝ).length = dNeg.Embedding.length ∧
    Real.sqrt (sumSq [(1 : ℝ)]) * Real.sqrt (sumSq dNeg.Embedding) ≠ 0 ∧
    rNeg.Semantic = -1 := by
  refine ⟨rfl, rfl, rfl, by simp, rfl, ?_, ?_⟩
  · show Real.sqrt (sumSq [(1 : ℝ)]) * Real.sqrt (sumSq [(-1 : ℝ)]) ≠ 0
    norm_num [sumSq, Real.sqrt_one]
  · show cosine [(1 : ℝ)] [(-1 : ℝ)] = -1
    rw [cosine, if_neg (by norm_num)]
    have hs1 : sumSq [(1 : ℝ)] = 1 := by norm_num [sumSq]
    have hs2 : sumSq [(-1 : ℝ)] = 1 := by norm_num [sumSq]
    rw [hs1, hs2, Real.sqrt_one]
    norm_num [dot]

/-! ## Claim C2 -/

/-- C2: if any embedding request made during `Rebuild` fails, `Rebuild`
returns an error identifying the failing item (its product id and the
underlying cause) and the index, in particular its corpus, is exactly as it
was before the call. -/
theorem rebuild_failure_atomic (ix : Index) (embed : EmbedFn) (ps : List Product)
    (h : ∃ p ∈ ps, searchText p ≠ "" ∧ ∃ c, embed (searchText p) = .error c) :
    (ix.rebuild embed ps).1 = ix ∧
    ∃ e : RebuildErr, (ix.rebuild embed ps).2 = some e ∧
      ∃ p ∈ ps, searchText p ≠ "" ∧ embed (searchText p) = .error e.cause ∧ e.id = p.ID := by
  obtain ⟨e, he, hprops⟩ := buildDocs_error_of_fail embed ps h
  unfold Index.rebuild
  rw [he]
  exact ⟨rfl, e, rfl, hprops⟩

/-- Witness for `rebuild_failure_atomic`: one product with non-empty search
text and an embedding provider that always fails. -/
theorem rebuild_failure_atomic_witness :
    (searchText pA ≠ "" ∧ efFail (searchText pA) = .error "x") ∧
    (ix1.rebuild efFail [pA]).1 = ix1 := by
  refine ⟨⟨by decide, rfl⟩, ?_⟩
  exact (rebuild_failure_atomic ix1 efFail [pA]
    ⟨pA, List.mem_cons_self pA [], by decide, "x", rfl⟩).1

/-! ## Claim C3 -/

/-- C3: every result returned by `Search` for a successfully embedded query
arises from a corpus document and carries, unchanged, that document's
semantic sub-score (cosine of query and document embeddings), its fuzzy
sub-score (maximum of the wrapped metric against title, brand, and
description), and the weighted combined score. -/
theorem search_score_formula (ix : Index) (embed : EmbedFn) (jw : String → String → ℝ)
    (query : String) (k : Int) (res : List SearchResult) (qVec : List ℝ)
    (he : embed (trimSpace query) = .ok qVec)
    (hs : ix.search embed jw query k = .ok res) :
    ∀ r ∈ res, ∃ d ∈ ix.docs,
      r.Product = d.P ∧
      r.Semantic = cosine qVec d.Embedding ∧
      r.Fuzzy = max3 (jaroWinkler jw (trimSpace query) d.P.Title)
        (jaroWinkler jw (trimSpace query) d.P.Brand)
        (jaroWinkler jw (trimSpace query) d.P.Description) ∧
      r.Score = ix.semanticWeight * r.Semantic + ix.fuzzyWeight * r.Fuzzy := by
  intro r hr
  rcases search_ok_cases ix embed jw query k res hs with ⟨_, rfl⟩ | ⟨hq, v, hv, rfl⟩
  · cases hr
  · have hv' : v = qVec := by
      rw [hv] at he
      exact (Except.ok.injEq _ _).mp he
    subst hv'
    have hr2 : r ∈ ix.docs.map (scoreDoc ix jw (trimSpace query) v) := by
      have hmem := (truncateTopK_sublist k _).subset hr
      simpa [sortByScoreDesc] using hmem
    obtain ⟨d, hd, rfl⟩ := List.mem_map.mp hr2
    exact ⟨d, hd, rfl, rfl, rfl, rfl⟩

/-- Witness for `search_score_formula`: a one-document corpus, the query q,
and the constant embedding provider. -/
theorem search_score_formula_witness :
    (efOk1 (trimSpace "q") = .ok [(1 : ℝ)] ∧ ix1.search efOk1 jwZ "q" 10 = .ok [rA]) ∧
    (rA.Product = dA.P ∧
      rA.Semantic = cosine [(1 : ℝ)] dA.Embedding ∧
      rA.Fuzzy = max3 (jaroWinkler jwZ (trimSpace "q") dA.P.Title)
        (jaroWinkler jwZ (trimSpace "q") dA.P.Brand)
        (jaroWinkler jwZ (trimSpace "q") dA.P.Description) ∧
      rA.Score = ix1.semanticWeight * rA.Semantic + ix1.fuzzyWeight * rA.Fuzzy) := by
  have hs : ix1.search efOk1 jwZ "q" 10 = .ok [rA] := rfl
  have H := search_score_formula ix1 efOk1 jwZ "q" 10 [rA] [(1 : ℝ)] rfl hs rA
    (List.mem_cons_self rA [])
  obtain ⟨d, hd, hprops⟩ := H
  have hd' : d = dA := by
    have := List.mem_singleton.mp hd
    exact this
  rw [hd'] at hprops
  exact ⟨⟨rfl, hs⟩, hprops⟩

/-! ## Claim C6 -/

/-- C6: an input item whose derived search text is empty is excluded from
the corpus built by `Rebuild`, no embedding request is made for it (every
text sent to the provider is non-empty), the corpus built from an input list
containing such an item is strictly smaller than the input count, and no
subsequent `Search` over the built corpus ever returns a result whose
product has an empty search text. -/
theorem rebuild_skips_empty (embed : EmbedFn) (ps : List Product)
    (ds : List ProductDoc) (cs : List String)
    (h : buildDocs embed ps = .ok (ds, cs)) :
    (∀ d ∈ ds, d.SearchText = searchText d.P ∧ searchText d.P ≠ "") ∧
    (∀ s ∈ cs, s ≠ "") ∧
    ((∃ p ∈ ps, searchText p = "") → ds.length < ps.length) ∧
    (∀ (sw fw : ℝ) (embed2 : EmbedFn) (jw : String → String → ℝ) (q : String) (k : Int)
      (res : List SearchResult),
      (Index.mk sw fw ds).search embed2 jw q k = .ok res →
      ∀ r ∈ res, searchText r.Product ≠ "") := by
  obtain ⟨h1, h2, _, h4⟩ := buildDocs_ok_props embed ps ds cs h
  refine ⟨h1, h2, h4, ?_⟩
  intro sw fw embed2 jw q k res hs r hr
  obtain ⟨d, hd, hP⟩ := search_result_from_docs (Index.mk sw fw ds) embed2 jw q k res hs r hr
  rw [hP]
  exact (h1 d hd).2

/-- Witness for `rebuild_skips_empty`: an input list with one empty-text item
and one surviving item. -/
theorem rebuild_skips_empty_witness :
    buildDocs efOk1 [pEmpty, pA] = .ok ([dA], ["a"]) ∧
    searchText pEmpty = "" ∧
    ([dA].length < [pEmpty, pA].length) := by
  have hb : buildDocs efOk1 [pEmpty, pA] = .ok ([dA], ["a"]) := rfl
  refine ⟨hb, by decide, ?_⟩
  exact (rebuild_skips_empty efOk1 [pEmpty, pA] [dA] ["a"] hb).2.2.1
    ⟨pEmpty, List.mem_cons_self pEmpty [pA], by decide⟩

/-! ## Claim C7 -/

/-- C7 (amended): a successful `Search` returns a list sorted in
non-increasing order of combined score; when the limit is positive the list
has length at most the limit and at most the corpus size; when the limit is
non-positive and the trimmed query is non-empty, the list contains exactly
one scored result per corpus document (it is a permutation of the
per-document scored results, with no truncation). (The original claim also
required one result per document for queries that trim to the empty string,
where `Search` in fact returns the empty list; see the counterexample.) -/
theorem search_sorted_truncated (ix : Index) (embed : EmbedFn) (jw : String → String → ℝ)
    (q : String) (k : Int) (res : List SearchResult) (qVec : List ℝ)
    (hs : ix.search embed jw q k = .ok res) :
    res.Pairwise (fun a b => b.Score ≤ a.Score) ∧
    (0 < k → (res.length : Int) ≤ k ∧ res.length ≤ ix.docs.length) ∧
    (k ≤ 0 → trimSpace q ≠ "" → embed (trimSpace q) = .ok qVec →
      res.length = ix.docs.length ∧
      res.Perm (ix.docs.map (scoreDoc ix jw (trimSpace q) qVec))) := by
  rcases search_ok_cases ix embed jw q k res hs with ⟨hq, rfl⟩ | ⟨hq, v, hv, rfl⟩
  · refine ⟨List.Pairwise.nil, fun hk => ⟨by simpa using le_of_lt hk, by simp⟩,
      fun _ hq2 _ => absurd hq hq2⟩
  · have hsorted : (sortByScoreDesc (ix.docs.map (scoreDoc ix jw (trimSpace q) v))).Pairwise
        (fun a b => b.Score ≤ a.Score) :=
      List.sorted_insertionSort _ _
    have hperm : (sortByScoreDesc (ix.docs.map (scoreDoc ix jw (trimSpace q) v))).Perm
        (ix.docs.map (scoreDoc ix jw (trimSpace q) v)) :=
      List.perm_insertionSort _ _
    refine ⟨List.Pairwise.sublist (truncateTopK_sublist _ _) hsorted, ?_, ?_⟩
    · intro hk
      refine ⟨truncateTopK_length _ _ hk, ?_⟩
      have hlen1 : (truncateTopK k (sortByScoreDesc (ix.docs.map (scoreDoc ix jw (trimSpace q) v)))).length ≤
          (sortByScoreDesc (ix.docs.map (scoreDoc ix jw (trimSpace q) v))).length :=
        (truncateTopK_sublist _ _).length_le
      have hlen2 : (sortByScoreDesc (ix.docs.map (scoreDoc ix jw (trimSpace q) v))).length =
          ix.docs.length := by
        rw [hperm.length_eq, List.length_map]
      omega
    · intro hk _ he
      have hv' : v = qVec := by
        rw [hv] at he
        exact (Except.ok.injEq _ _).mp he
      subst hv'
      rw [truncateTopK_of_nonpos _ _ hk]
      exact ⟨by rw [hperm.length_eq, List.length_map], hperm⟩

/-- Witness for `search_sorted_truncated`: an empty corpus, the query q, and
a non-positive limit. -/
theorem search_sorted_truncated_witness :
    ixE.search efOk1 jwZ "q" 0 = .ok [] ∧
    ([] : List SearchResult).Pairwise (fun a b => b.Score ≤ a.Score) ∧
    ([] : List SearchResult).length = ixE.docs.length ∧
    ([] : List SearchResult).Perm (ixE.docs.map (scoreDoc ixE jwZ (trimSpace "q") [(1 : ℝ)])) := by
  have hs : ixE.search efOk1 jwZ "q" 0 = .ok [] := rfl
  have H := search_sorted_truncated ixE efOk1 jwZ "q" 0 [] [(1 : ℝ)] hs
  have H2 := H.2.2 (by decide) (by decide) rfl
  exact ⟨hs, H.1, H2.1, H2.2⟩

/-- Counterexample to C7 as stated: with a query that trims to the empty
string and limit 0, `Search` over a one-document corpus returns the empty
list, not one scored result per corpus document. -/
theorem search_sorted_truncated_cex :
    ix1.search efOk1 jwZ "" 0 = .ok [] ∧
    (0 : Int) ≤ 0 ∧
    ([] : List SearchResult).length ≠ ix1.docs.length := by
  exact ⟨rfl, le_refl 0, by decide⟩

/-! ## Claim C8 -/

/-- C8: for every index state, every embedding provider (the provider is
never consulted: the result holds uniformly in it), every limit, and every
query that trims to the empty string, `Search` returns an empty result list
and no error. -/
theorem search_empty_query (ix : Index) (embed : EmbedFn) (jw : String → String → ℝ)
    (q : String) (k : Int) (h : trimSpace q = "") :
    ix.search embed jw q k = .ok [] :=
  search_eq_empty ix embed jw q k h

/-- Witness for `search_empty_query` at the empty query over a non-empty
corpus. -/
theorem search_empty_query_witness :
    trimSpace "" = "" ∧ ix1.search efFail jwZ "" 7 = .ok [] :=
  ⟨rfl, search_empty_query ix1 efFail jwZ "" 7 rfl⟩

/-! ## Claim C10 -/

/-- C10: `Search` never mutates the index: the post-state of the method is
the exact pre-state (same weights, same corpus), whether it returns results
or an error. -/
theorem search_no_mutation (ix : Index) (embed : EmbedFn) (jw : String → String → ℝ)
    (q : String) (k : Int) :
    (ix.searchS embed jw q k).1 = ix := by
  unfold Index.searchS
  split
  · rfl
  · split <;> rfl

/-! ## Claim C4 -/

/-- C4: the handler merge keeps at most one result per distinct product id;
every retained result is one of the supplied results and its combined score
is the maximum combined score any supplied variant list assigned to that id;
the merged output is sorted in non-increasing order of combined score and is
truncated to the limit when the limit is positive. -/
theorem merge_max_wins (ls : List (List SearchResult)) (k : Int) :
    (mergeOut ls k).Pairwise (fun a b => a.Product.ID ≠ b.Product.ID) ∧
    (∀ r ∈ mergeOut ls k, r ∈ ls.flatten ∧
      ∀ it ∈ ls.flatten, it.Product.ID = r.Product.ID → it.Score ≤ r.Score) ∧
    (mergeOut ls k).Pairwise (fun a b => b.Score ≤ a.Score) ∧
    (0 < k → ((mergeOut ls k).length : Int) ≤ k) := by
  obtain ⟨hnd, hent, _⟩ := mergeInv_out ls
  have hperm : (sortByScoreDesc ((ls.foldl mergeList []).map Prod.snd)).Perm
      ((ls.foldl mergeList []).map Prod.snd) := List.perm_insertionSort _ _
  have hsub : (mergeOut ls k).Sublist
      (sortByScoreDesc ((ls.foldl mergeList []).map Prod.snd)) :=
    truncateTopK_sublist _ _
  have hmem_out : ∀ r ∈ mergeOut ls k, r ∈ (ls.foldl mergeList []).map Prod.snd := by
    intro r hr
    exact hperm.subset (hsub.subset hr)
  refine ⟨?_, ?_, ?_, ?_⟩
  · have hp1 : (ls.foldl mergeList []).Pairwise (fun kv kv' => kv.1 ≠ kv'.1) :=
      List.pairwise_map.mp hnd
    have hp2 : (ls.foldl mergeList []).Pairwise
        (fun kv kv' => kv.2.Product.ID ≠ kv'.2.Product.ID) := by
      refine hp1.imp_of_mem ?_
      intro kv kv' hkv hkv' hne
      rw [(hent kv hkv).1, (hent kv' hkv').1]
      exact hne
    have hp3 : ((ls.foldl mergeList []).map Prod.snd).Pairwise
        (fun a b => a.Product.ID ≠ b.Product.ID) := List.pairwise_map.mpr hp2
    have hsymm : ∀ {x y : SearchResult},
        x.Product.ID ≠ y.Product.ID → y.Product.ID ≠ x.Product.ID :=
      fun h => h.symm
    exact List.Pairwise.sublist hsub ((hperm.pairwise_iff hsymm).mpr hp3)
  · intro r hr
    obtain ⟨kv, hkv, hkv2⟩ := List.mem_map.mp (hmem_out r hr)
    obtain ⟨hid, hPmem, hdom⟩ := hent kv hkv
    rw [← hkv2]
    refine ⟨hPmem, ?_⟩
    intro it hit hid2
    exact hdom it hit (hid2.trans hid)
  · exact List.Pairwise.sublist hsub (List.sorted_insertionSort _ _)
  · intro hk
    exact truncateTopK_length _ _ hk

/-- Witness for `merge_max_wins`: a single variant list with one result and
the positive limit 5. -/
theorem merge_max_wins_witness :
    (0 : Int) < 5 ∧ ((mergeOut [[r0]] 5).length : Int) ≤ 5 :=
  ⟨by decide, (merge_max_wins [[r0]] 5).2.2.2 (by decide)⟩

/-! ## Claim C9 -/

/-- C9: the handler absorbs failures: a rewriter failure makes it search the
raw query text as the sole primary (the handler output is the same as for a
successful rewrite whose primary is the raw query with no alternatives), and
a variant whose search fails, in any position of the variant list, simply
contributes no result list while the remaining variants are still searched
in order. The handler itself always produces a result list, never an error. -/
theorem handler_absorbs_failures :
    (∀ (ix : Index) (embed : EmbedFn) (jw : String → String → ℝ) (q : String) (k : Int)
      (e : String),
      handleSearch ix embed jw (.error e) q k = handleSearch ix embed jw (.ok ⟨q, []⟩) q k) ∧
    (∀ (ix : Index) (embed : EmbedFn) (jw : String → String → ℝ) (k : Int)
      (vs1 : List String) (v : String) (vs2 : List String) (err : String),
      ix.search embed jw v k = .error err →
      variantLists ix embed jw k (vs1 ++ v :: vs2) = variantLists ix embed jw k (vs1 ++ vs2)) := by
  constructor
  · intro ix embed jw q k e
    rfl
  · intro ix embed jw k vs1 v vs2 err hfail
    induction vs1 with
    | nil =>
      simp only [List.nil_append, variantLists, hfail]
    | cons w ws ih =>
      simp only [List.cons_append, variantLists]
      cases hw : ix.search embed jw w k with
      | error e2 =>
        simp only [hw]
        exact ih
      | ok l =>
        simp only [hw]
        exact congrArg (fun t => l :: t) ih

/-- Witness for `handler_absorbs_failures`: a variant whose search fails
because the embedding provider fails. -/
theorem handler_absorbs_failures_witness :
    ixE.search efFail jwZ "a" 5 = .error "embed query: x" ∧
    variantLists ixE efFail jwZ 5 ["a"] = variantLists ixE efFail jwZ 5 [] := by
  have h : ixE.search efFail jwZ "a" 5 = .error "embed query: x" := rfl
  exact ⟨h, handler_absorbs_failures.2 ixE efFail jwZ 5 [] "a" [] "embed query: x" h⟩

end GocomSearch
